import Mathlib

/-!
Verification of the shared editing core of the site tools
(`tools/core.py`): card data model, card operations, content preview,
publish sequence, and the save/load round-trip.

Cards are ruamel.yaml `CommentedMap`s, i.e. insertion-ordered mappings;
we embed them as ordered association lists.  Python `int` indices are
embedded as `Int` (they may be negative), list mutation as explicit
state passing: each operation returns the outcome (`Except` for code
paths that raise `IndexError`) together with the final state of the
card list.  In `core.py` every `raise` happens before any mutation, so
the error branches return the input list unchanged.
-/

namespace SiteCards

/-- A YAML value as it occurs in a card: a plain string scalar, a
boolean, or a sequence of literal block scalars (the `content` field). -/
inductive Value where
  | str : String → Value
  | bool : Bool → Value
  | blocks : List String → Value
deriving DecidableEq, Repr

/-- A card: an insertion-ordered mapping (ruamel `CommentedMap`). -/
abbrev Card := List (String × Value)

/-- `card[k]` lookup (first occurrence; dict keys are unique). -/
def getKey : Card → String → Option Value
  | [], _ => none
  | p :: rest, k => if p.1 = k then some p.2 else getKey rest k

/-- `card[k] = v`: replace in place (keeping key position) if present,
else append at the end — Python dict assignment order semantics. -/
def setKey : Card → String → Value → Card
  | [], k, v => [(k, v)]
  | p :: rest, k, v => if p.1 = k then (k, v) :: rest else p :: setKey rest k v

/-- `del card[k]`: drop the key. -/
def delKey (c : Card) (k : String) : Card :=
  c.filter (fun p => p.1 ≠ k)

/-- `k in card`. -/
def hasKey (c : Card) (k : String) : Bool :=
  (getKey c k).isSome

/-- `add_card` (core.py lines 63–82): build the new card field by field
(`logo`, `center`, `partition`, `title` only when truthy, `content`
always a one-element list of a literal block scalar), append it to the
list, return it. -/
def add_card (cards : List Card) (logo title content : String)
    (center partition : Bool) : Card × List Card :=
  let card : Card := []
  let card := if logo ≠ "" then setKey card "logo" (Value.str logo) else card
  let card := if center then setKey card "center" (Value.bool true) else card
  let card := if partition then setKey card "partition" (Value.bool true) else card
  let card := if title ≠ "" then setKey card "title" (Value.str title) else card
  let card := if content ≠ "" then setKey card "content" (Value.blocks [content])
              else setKey card "content" (Value.blocks [""])
  (card, cards ++ [card])

/-- `remove_card` (core.py lines 85–89): `cards.pop(index)` behind a
range check, `IndexError` otherwise. -/
def remove_card (cards : List Card) (index : Int) :
    Except String Card × List Card :=
  if h : 0 ≤ index ∧ index < (cards.length : Int) then
    (Except.ok (cards.get ⟨index.toNat, by omega⟩), cards.eraseIdx index.toNat)
  else
    (Except.error ("Card index " ++ toString index ++ " out of range (0-" ++
      toString ((cards.length : Int) - 1) ++ ")"), cards)

/-- `reorder_card` (core.py lines 92–99): check both indices against the
original length (from first), then `pop(from_idx)` and
`insert(to_idx, card)` into the shortened list. -/
def reorder_card (cards : List Card) (from_idx to_idx : Int) :
    Except String Unit × List Card :=
  if h : 0 ≤ from_idx ∧ from_idx < (cards.length : Int) then
    if 0 ≤ to_idx ∧ to_idx < (cards.length : Int) then
      (Except.ok (),
        (cards.eraseIdx from_idx.toNat).insertIdx to_idx.toNat
          (cards.get ⟨from_idx.toNat, by omega⟩))
    else
      (Except.error ("to index " ++ toString to_idx ++ " out of range"), cards)
  else
    (Except.error ("from index " ++ toString from_idx ++ " out of range"), cards)

/-- The `update_card` treatment of an optional string field that is
removed when set to the empty string (the `title` branch, core.py lines
111–115): provided and truthy ⇒ set, provided and empty ⇒ delete when
present, absent ⇒ untouched. -/
def setOrDelStr (card : Card) (k : String) (o : Option String) : Card :=
  match o with
  | some t =>
      if t ≠ "" then setKey card k (Value.str t)
      else if hasKey card k then delKey card k else card
  | none => card

/-- The `update_card` treatment of an optional boolean flag (the
`center`/`partition` branches, core.py lines 118–127): provided true ⇒
set `True`, provided false ⇒ delete when present, absent ⇒ untouched. -/
def setOrDelFlag (card : Card) (k : String) (o : Option Bool) : Card :=
  match o with
  | some b =>
      if b then setKey card k (Value.bool true)
      else if hasKey card k then delKey card k else card
  | none => card

/-- The in-place field mutations of `update_card` on the addressed card,
in source order: `logo` is set whenever provided (even empty, core.py
lines 109–110); `title` per `setOrDelStr`; `content` is replaced by a
one-element literal block list; `center`/`partition` per
`setOrDelFlag`. -/
def updateFields (card : Card) (logo title content : Option String)
    (center partition : Option Bool) : Card :=
  let card := match logo with
    | some l => setKey card "logo" (Value.str l)
    | none => card
  let card := setOrDelStr card "title" title
  let card := match content with
    | some s => setKey card "content" (Value.blocks [s])
    | none => card
  let card := setOrDelFlag card "center" center
  let card := setOrDelFlag card "partition" partition
  card

/-- `update_card` (core.py lines 102–127): range check first
(`IndexError` on failure, before any mutation), then mutate the card at
`index` in place. -/
def update_card (cards : List Card) (index : Int)
    (logo title content : Option String) (center partition : Option Bool) :
    Except String Unit × List Card :=
  if h : 0 ≤ index ∧ index < (cards.length : Int) then
    (Except.ok (),
      cards.set index.toNat
        (updateFields (cards.get ⟨index.toNat, by omega⟩)
          logo title content center partition))
  else
    (Except.error ("Card index " ++ toString index ++ " out of range"), cards)

/-! ### Lemmas about the ordered-mapping primitives -/

theorem getKey_setKey_self (c : Card) (k : String) (v : Value) :
    getKey (setKey c k v) k = some v := by
  induction c with
  | nil => simp [setKey, getKey]
  | cons p rest ih =>
    by_cases h : p.1 = k
    · simp [setKey, getKey, h]
    · simp [setKey, getKey, h, ih]

theorem getKey_setKey_ne (c : Card) (k k' : String) (v : Value) (h : k' ≠ k) :
    getKey (setKey c k v) k' = getKey c k' := by
  induction c with
  | nil => simp [setKey, getKey, Ne.symm h]
  | cons p rest ih =>
    by_cases hp : p.1 = k
    · subst hp
      simp [setKey, getKey, Ne.symm h, h]
    · by_cases hp' : p.1 = k'
      · simp [setKey, getKey, hp, hp', h]
      · simp [setKey, getKey, hp, hp', ih]

theorem delKey_cons (p : String × Value) (rest : Card) (k : String) :
    delKey (p :: rest) k =
      if p.1 = k then delKey rest k else p :: delKey rest k := by
  by_cases h : p.1 = k <;> simp [delKey, List.filter_cons, h]

theorem getKey_delKey_self (c : Card) (k : String) :
    getKey (delKey c k) k = none := by
  induction c with
  | nil => rfl
  | cons p rest ih =>
    rw [delKey_cons]
    by_cases h : p.1 = k
    · simpa [h] using ih
    · simpa [getKey, h] using ih

theorem getKey_delKey_ne (c : Card) (k k' : String) (h : k' ≠ k) :
    getKey (delKey c k) k' = getKey c k' := by
  induction c with
  | nil => rfl
  | cons p rest ih =>
    rw [delKey_cons]
    by_cases hp : p.1 = k
    · simpa [hp, getKey, Ne.symm h] using ih
    · by_cases hp' : p.1 = k'
      · simp [hp, hp', h, getKey]
      · simpa [hp, getKey, hp'] using ih

/-- Re-inserting the removed element at its own index restores the list. -/
theorem insertIdx_eraseIdx_get :
    ∀ (l : List Card) (n : Nat) (h : n < l.length),
      (l.eraseIdx n).insertIdx n (l.get ⟨n, h⟩) = l
  | _ :: _, 0, _ => rfl
  | a :: l, n + 1, h => by
    simpa [List.eraseIdx, List.insertIdx_succ_cons] using
      insertIdx_eraseIdx_get l n (by simpa using h)

/-! ### C2, C5, C10 -/

/-- C2: for valid `from_idx`/`to_idx` (against the original length),
`reorder_card` pops the card at `from_idx` and re-inserts it at `to_idx`
in the shortened list; moving `0` to `length - 1` puts the head at the
end; reordering an index onto itself is a no-op. -/
theorem reorder_card_spec (cards : List Card) (from_idx to_idx : Int) :
    ((0 ≤ from_idx ∧ from_idx < (cards.length : Int)) →
      (0 ≤ to_idx ∧ to_idx < (cards.length : Int)) →
      ∀ c : Card, cards.get? from_idx.toNat = some c →
        reorder_card cards from_idx to_idx =
          (Except.ok (), (cards.eraseIdx from_idx.toNat).insertIdx to_idx.toNat c))
    ∧ (∀ (c : Card) (cs : List Card),
        reorder_card (c :: cs) 0 (((c :: cs).length : Int) - 1) =
          (Except.ok (), cs ++ [c]))
    ∧ (∀ i : Int, 0 ≤ i → i < (cards.length : Int) →
        reorder_card cards i i = (Except.ok (), cards)) := by
  refine ⟨?_, ?_, ?_⟩
  · intro h1 h2 c hc
    rw [reorder_card, dif_pos h1, if_pos h2]
    have : cards.get ⟨from_idx.toNat, by omega⟩ = c := by
      have := List.get?_eq_get (l := cards) (n := from_idx.toNat) (by omega)
      rw [this] at hc
      exact Option.some.inj hc
    rw [this]
  · intro c cs
    have hlen : (((c :: cs).length : Int) - 1) = (cs.length : Int) := by
      simp only [List.length_cons]
      omega
    rw [hlen, reorder_card,
      dif_pos ⟨by omega, by simp only [List.length_cons]; omega⟩,
      if_pos ⟨by omega, by simp only [List.length_cons]; omega⟩]
    simp [List.insertIdx_length_self]
  · intro i h0 hlt
    rw [reorder_card, dif_pos ⟨h0, hlt⟩, if_pos ⟨h0, hlt⟩,
      insertIdx_eraseIdx_get cards i.toNat (by omega)]

/-- C2 witness. -/
theorem reorder_card_spec_witness :
    reorder_card [[("title", Value.str "a")], [("title", Value.str "b")],
        [("title", Value.str "c")]] 0 1 =
      (Except.ok (), [[("title", Value.str "b")], [("title", Value.str "a")],
        [("title", Value.str "c")]])
    ∧ reorder_card [[("title", Value.str "a")], [("title", Value.str "b")]]
        0 (((2 : Nat) : Int) - 1) =
      (Except.ok (), [[("title", Value.str "b")], [("title", Value.str "a")]])
    ∧ reorder_card [[("title", Value.str "a")], [("title", Value.str "b")]] 1 1 =
      (Except.ok (), [[("title", Value.str "a")], [("title", Value.str "b")]]) := by
  refine ⟨?_, ?_, ?_⟩
  · have h := (reorder_card_spec [[("title", Value.str "a")],
      [("title", Value.str "b")], [("title", Value.str "c")]] 0 1).1
      (by constructor <;> decide) (by constructor <;> decide)
      [("title", Value.str "a")] (by decide)
    rw [h]; rfl
  · have h := (reorder_card_spec ([[("title", Value.str "a")],
      [("title", Value.str "b")]] : List Card) 0 0).2.1
      [("title", Value.str "a")] [[("title", Value.str "b")]]
    simpa using h
  · exact (reorder_card_spec [[("title", Value.str "a")],
      [("title", Value.str "b")]] 1 1).2.2 1 (by decide) (by decide)


/-! ### Field-level behaviour of the update steps -/

theorem getKey_setOrDelStr_ne (c : Card) (k k' : String) (o : Option String)
    (h : k' ≠ k) : getKey (setOrDelStr c k o) k' = getKey c k' := by
  cases o with
  | none => rfl
  | some t =>
    by_cases ht : t = ""
    · by_cases hk : hasKey c k
      · simp [setOrDelStr, ht, hk, getKey_delKey_ne c k k' h]
      · simp [setOrDelStr, ht, hk]
    · simp [setOrDelStr, ht, getKey_setKey_ne c k k' _ h]

theorem getKey_setOrDelStr_self (c : Card) (k : String) (o : Option String) :
    getKey (setOrDelStr c k o) k =
      match o with
      | none => getKey c k
      | some t => if t = "" then none else some (Value.str t) := by
  cases o with
  | none => rfl
  | some t =>
    by_cases ht : t = ""
    · by_cases hk : hasKey c k
      · simp [setOrDelStr, ht, hk, getKey_delKey_self]
      · have : getKey c k = none := by
          cases hgk : getKey c k with
          | none => rfl
          | some v => exact absurd (by simp [hasKey, hgk]) hk
        simp [setOrDelStr, ht, hk, this]
    · simp [setOrDelStr, ht, getKey_setKey_self]

theorem getKey_setOrDelFlag_ne (c : Card) (k k' : String) (o : Option Bool)
    (h : k' ≠ k) : getKey (setOrDelFlag c k o) k' = getKey c k' := by
  cases o with
  | none => rfl
  | some b =>
    cases b
    · by_cases hk : hasKey c k
      · simp [setOrDelFlag, hk, getKey_delKey_ne c k k' h]
      · simp [setOrDelFlag, hk]
    · simp [setOrDelFlag, getKey_setKey_ne c k k' _ h]

theorem getKey_setOrDelFlag_self (c : Card) (k : String) (o : Option Bool) :
    getKey (setOrDelFlag c k o) k =
      match o with
      | none => getKey c k
      | some b => if b then some (Value.bool true) else none := by
  cases o with
  | none => rfl
  | some b =>
    cases b
    · by_cases hk : hasKey c k
      · simp [setOrDelFlag, hk, getKey_delKey_self]
      · have : getKey c k = none := by
          cases hgk : getKey c k with
          | none => rfl
          | some v => exact absurd (by simp [hasKey, hgk]) hk
        simp [setOrDelFlag, hk, this]
    · simp [setOrDelFlag, getKey_setKey_self]

/-- The `title` field after `updateFields`: set when provided non-empty,
absent when provided empty, untouched when the parameter is absent. -/
theorem getKey_updateFields_title (card : Card) (logo content : Option String)
    (center partition : Option Bool) (title : Option String) :
    getKey (updateFields card logo title content center partition) "title" =
      match title with
      | none => getKey card "title"
      | some t => if t = "" then none else some (Value.str t) := by
  unfold updateFields
  rw [getKey_setOrDelFlag_ne _ "partition" "title" partition (by decide),
    getKey_setOrDelFlag_ne _ "center" "title" center (by decide)]
  have hcontent : ∀ c : Card,
      getKey (match content with
        | some s => setKey c "content" (Value.blocks [s])
        | none => c) "title" = getKey c "title" := by
    intro c
    cases content with
    | none => rfl
    | some s => exact getKey_setKey_ne c "content" "title" _ (by decide)
  rw [hcontent, getKey_setOrDelStr_self]
  cases title with
  | none =>
    cases logo with
    | none => rfl
    | some l => exact getKey_setKey_ne card "logo" "title" _ (by decide)
  | some t => rfl

/-- The `logo` field after `updateFields`: set to the provided string
(empty or not) when provided, untouched otherwise. -/
theorem getKey_updateFields_logo (card : Card) (title content : Option String)
    (center partition : Option Bool) (logo : Option String) :
    getKey (updateFields card logo title content center partition) "logo" =
      match logo with
      | none => getKey card "logo"
      | some l => some (Value.str l) := by
  unfold updateFields
  rw [getKey_setOrDelFlag_ne _ "partition" "logo" partition (by decide),
    getKey_setOrDelFlag_ne _ "center" "logo" center (by decide)]
  have hcontent : ∀ c : Card,
      getKey (match content with
        | some s => setKey c "content" (Value.blocks [s])
        | none => c) "logo" = getKey c "logo" := by
    intro c
    cases content with
    | none => rfl
    | some s => exact getKey_setKey_ne c "content" "logo" _ (by decide)
  rw [hcontent, getKey_setOrDelStr_ne _ "title" "logo" title (by decide)]
  cases logo with
  | none => rfl
  | some l => exact getKey_setKey_self card "logo" (Value.str l)


/-- C5: an out-of-range index (negative or `≥ length`, checked against
the original list) makes `update_card`, `remove_card` and
`reorder_card` (either index invalid) return the `IndexError` and leave
the card list exactly as it was. -/
theorem invalid_index_spec (cards : List Card) (index from_idx to_idx : Int)
    (logo title content : Option String) (center partition : Option Bool) :
    (¬(0 ≤ index ∧ index < (cards.length : Int)) →
      update_card cards index logo title content center partition =
        (Except.error ("Card index " ++ toString index ++ " out of range"),
          cards)
      ∧ remove_card cards index =
        (Except.error ("Card index " ++ toString index ++ " out of range (0-" ++
          toString ((cards.length : Int) - 1) ++ ")"), cards))
    ∧ (¬(0 ≤ from_idx ∧ from_idx < (cards.length : Int)) →
      reorder_card cards from_idx to_idx =
        (Except.error ("from index " ++ toString from_idx ++ " out of range"),
          cards))
    ∧ ((0 ≤ from_idx ∧ from_idx < (cards.length : Int)) →
      ¬(0 ≤ to_idx ∧ to_idx < (cards.length : Int)) →
      reorder_card cards from_idx to_idx =
        (Except.error ("to index " ++ toString to_idx ++ " out of range"),
          cards)) := by
  refine ⟨fun h => ⟨?_, ?_⟩, fun h => ?_, fun h1 h2 => ?_⟩
  · rw [update_card, dif_neg h]
  · rw [remove_card, dif_neg h]
  · rw [reorder_card, dif_neg h]
  · rw [reorder_card, dif_pos h1, if_neg h2]

/-- C5 witness. -/
theorem invalid_index_spec_witness :
    update_card [[("content", Value.blocks [""])]] (-1)
        none none none none none =
      (Except.error "Card index -1 out of range",
        [[("content", Value.blocks [""])]])
    ∧ remove_card [[("content", Value.blocks [""])]] 1 =
      (Except.error "Card index 1 out of range (0-0)",
        [[("content", Value.blocks [""])]])
    ∧ reorder_card [[("content", Value.blocks [""])]] 5 0 =
      (Except.error "from index 5 out of range",
        [[("content", Value.blocks [""])]])
    ∧ reorder_card [[("content", Value.blocks [""])]] 0 (-2) =
      (Except.error "to index -2 out of range",
        [[("content", Value.blocks [""])]]) := by
  refine ⟨?_, ?_, ?_, ?_⟩
  · have h := (invalid_index_spec [[("content", Value.blocks [""])]]
      (-1) 0 0 none none none none none).1 (by decide)
    rw [h.1]
    rfl
  · have h := (invalid_index_spec [[("content", Value.blocks [""])]]
      1 0 0 none none none none none).1 (by decide)
    rw [h.2]
    rfl
  · have h := (invalid_index_spec [[("content", Value.blocks [""])]]
      0 5 0 none none none none none).2.1 (by decide)
    rw [h]
    rfl
  · have h := (invalid_index_spec [[("content", Value.blocks [""])]]
      0 0 (-2) none none none none none).2.2 (by decide) (by decide)
    rw [h]
    rfl

/-- C10: on a valid index, `update_card` only touches the card at that
index — the length and every other position are unchanged, whatever
field parameters are supplied. -/
theorem update_card_frame (cards : List Card) (index : Int)
    (logo title content : Option String) (center partition : Option Bool)
    (h : 0 ≤ index ∧ index < (cards.length : Int)) :
    ((update_card cards index logo title content center partition).2).length =
      cards.length
    ∧ ∀ j : Nat, j ≠ index.toNat →
      ((update_card cards index logo title content center partition).2)[j]? =
        cards[j]? := by
  rw [update_card, dif_pos h]
  exact ⟨by simp, fun j hj => List.getElem?_set_ne (Ne.symm hj)⟩

/-- C10 witness. -/
theorem update_card_frame_witness :
    ((update_card [[("title", Value.str "a")], [("title", Value.str "b")]] 0
        (some "x") none none none none).2).length = 2
    ∧ ((update_card [[("title", Value.str "a")], [("title", Value.str "b")]] 0
        (some "x") none none none none).2)[1]? =
      some [("title", Value.str "b")] := by
  have h := update_card_frame
    [[("title", Value.str "a")], [("title", Value.str "b")]] 0
    (some "x") none none none none (by decide)
  refine ⟨(h.1).trans (by rfl), ?_⟩
  rw [h.2 1 (by decide)]
  rfl

/-- C4: `update_card` with `title = some ""` removes the `title` key of
the addressed card, with a non-empty title sets it, and with the title
parameter absent leaves it untouched — whatever the other parameters. -/
theorem update_card_title_spec (cards : List Card) (index : Int)
    (logo content : Option String) (center partition : Option Bool)
    (h : 0 ≤ index ∧ index < (cards.length : Int)) :
    (∀ c' : Card,
      ((update_card cards index logo (some "") content center
          partition).2)[index.toNat]? = some c' →
      getKey c' "title" = none)
    ∧ (∀ (t : String) (c' : Card), t ≠ "" →
      ((update_card cards index logo (some t) content center
          partition).2)[index.toNat]? = some c' →
      getKey c' "title" = some (Value.str t))
    ∧ (∀ c c' : Card, cards[index.toNat]? = some c →
      ((update_card cards index logo none content center
          partition).2)[index.toNat]? = some c' →
      getKey c' "title" = getKey c "title") := by
  have hlt : index.toNat < cards.length := by omega
  refine ⟨fun c' hc' => ?_, fun t c' ht hc' => ?_, fun c c' hc hc' => ?_⟩
  · rw [update_card, dif_pos h] at hc'
    simp only [List.getElem?_set_self', List.getElem?_eq_getElem hlt,
      Option.map_some, Function.const_apply, Option.some.injEq] at hc'
    rw [← hc', getKey_updateFields_title]
    rfl
  · rw [update_card, dif_pos h] at hc'
    simp only [List.getElem?_set_self', List.getElem?_eq_getElem hlt,
      Option.map_some, Function.const_apply, Option.some.injEq] at hc'
    rw [← hc', getKey_updateFields_title]
    simp [ht]
  · rw [update_card, dif_pos h] at hc'
    simp only [List.getElem?_set_self', List.getElem?_eq_getElem hlt,
      Option.map_some, Function.const_apply, Option.some.injEq] at hc'
    rw [List.getElem?_eq_getElem hlt, Option.some.injEq] at hc
    rw [← hc', getKey_updateFields_title]
    simp only [List.get_eq_getElem]
    rw [hc]

/-- C4 witness. -/
theorem update_card_title_spec_witness :
    (update_card [[("title", Value.str "a"), ("content", Value.blocks [""])]] 0
        none (some "") none none none).2 = [[("content", Value.blocks [""])]]
    ∧ getKey [("content", Value.blocks [""])] "title" = none
    ∧ (update_card [[("title", Value.str "a"), ("content", Value.blocks [""])]]
        0 none (some "New") none none none).2 =
      [[("title", Value.str "New"), ("content", Value.blocks [""])]]
    ∧ getKey [("title", Value.str "New"), ("content", Value.blocks [""])]
        "title" = some (Value.str "New")
    ∧ (update_card [[("title", Value.str "a"), ("content", Value.blocks [""])]]
        0 none none none none none).2 =
      [[("title", Value.str "a"), ("content", Value.blocks [""])]]
    ∧ getKey [("title", Value.str "a"), ("content", Value.blocks [""])]
        "title" = getKey [("title", Value.str "a"),
          ("content", Value.blocks [""])] "title" := by
  have h := update_card_title_spec
    [[("title", Value.str "a"), ("content", Value.blocks [""])]] 0
    none none none none (by decide)
  exact ⟨rfl, h.1 _ rfl, rfl, h.2.1 "New" _ (by decide) rfl, rfl,
    h.2.2 _ _ rfl rfl⟩


/-- C3 counterexample: `update_card` with `logo = some ""` does not
remove the `logo` key — it sets it to the empty string. -/
theorem update_card_logo_empty_counterexample :
    (update_card [[("logo", Value.str "/assets/img/a.svg"),
        ("content", Value.blocks [""])]] 0 (some "") none none none none).2 =
      [[("logo", Value.str ""), ("content", Value.blocks [""])]]
    ∧ getKey [("logo", Value.str ""), ("content", Value.blocks [""])]
        "logo" ≠ none := by
  exact ⟨rfl, by decide⟩

/-- C3 amended: for a valid index, `update_card` with the `logo`
parameter provided sets the `logo` key of the addressed card to the
given string — including the empty string; the empty-removes rule of
the other optional fields does not apply to `logo`. -/
theorem update_card_logo_spec (cards : List Card) (index : Int) (l : String)
    (title content : Option String) (center partition : Option Bool)
    (h : 0 ≤ index ∧ index < (cards.length : Int)) :
    ∀ c' : Card,
      ((update_card cards index (some l) title content center
          partition).2)[index.toNat]? = some c' →
      getKey c' "logo" = some (Value.str l) := by
  have hlt : index.toNat < cards.length := by omega
  intro c' hc'
  rw [update_card, dif_pos h] at hc'
  simp only [List.getElem?_set_self', List.getElem?_eq_getElem hlt,
    Option.map_some, Function.const_apply, Option.some.injEq] at hc'
  rw [← hc', getKey_updateFields_logo]

/-- C3 amended witness. -/
theorem update_card_logo_spec_witness :
    getKey [("logo", Value.str ""), ("content", Value.blocks [""])] "logo" =
      some (Value.str "") :=
  update_card_logo_spec [[("logo", Value.str "/assets/img/a.svg"),
    ("content", Value.blocks [""])]] 0 "" none none none none
    (by decide) _ rfl

/-- C6: `add_card` appends the constructed card at the end and returns
it; the card has `logo`/`title` only when non-empty, `center`/
`partition` only when true, and always a single-element literal-block
`content` (the empty block when no content is given). -/
theorem add_card_spec (cards : List Card) (logo title content : String)
    (center partition : Bool) :
    (add_card cards logo title content center partition).2 =
      cards ++ [(add_card cards logo title content center partition).1]
    ∧ getKey (add_card cards logo title content center partition).1 "logo" =
      (if logo = "" then none else some (Value.str logo))
    ∧ getKey (add_card cards logo title content center partition).1 "title" =
      (if title = "" then none else some (Value.str title))
    ∧ getKey (add_card cards logo title content center partition).1 "center" =
      (if center then some (Value.bool true) else none)
    ∧ getKey (add_card cards logo title content center
        partition).1 "partition" =
      (if partition then some (Value.bool true) else none)
    ∧ getKey (add_card cards logo title content center partition).1 "content" =
      some (Value.blocks [content]) := by
  refine ⟨rfl, ?_, ?_, ?_, ?_, ?_⟩ <;>
    by_cases hl : logo = "" <;> by_cases hc : center <;>
    by_cases hp : partition <;> by_cases ht : title = "" <;>
    by_cases hco : content = "" <;>
    simp [add_card, hl, hc, hp, ht, hco, setKey, getKey]


/-! ### Card well-formedness (C7) -/

/-- `content` values must be a single-element sequence of one block. -/
def isSingleBlock : Value → Bool
  | Value.blocks l => l.length = 1
  | _ => false

/-- A well-formed entry: `center`/`partition` are never stored false
(their absence is false), and `content` is a one-element block list. -/
def wfEntry (p : String × Value) : Prop :=
  (p.1 = "center" → p.2 = Value.bool true)
  ∧ (p.1 = "partition" → p.2 = Value.bool true)
  ∧ (p.1 = "content" → isSingleBlock p.2 = true)

instance (p : String × Value) : Decidable (wfEntry p) := by
  unfold wfEntry
  infer_instance

/-- A well-formed card: every entry is well-formed. -/
def wfCard (c : Card) : Prop := ∀ p ∈ c, wfEntry p

instance (c : Card) : Decidable (wfCard c) := by
  unfold wfCard
  exact List.decidableBAll _ c

/-- A well-formed card list. -/
def wfCards (cs : List Card) : Prop := ∀ c ∈ cs, wfCard c

instance (cs : List Card) : Decidable (wfCards cs) := by
  unfold wfCards
  exact List.decidableBAll _ cs

theorem mem_setKey (c : Card) (k : String) (v : Value) (q : String × Value)
    (hq : q ∈ setKey c k v) : q = (k, v) ∨ q ∈ c := by
  induction c with
  | nil => simpa [setKey] using hq
  | cons p rest ih =>
    by_cases h : p.1 = k
    · simp only [setKey, if_pos h, List.mem_cons] at hq
      rcases hq with hq | hq
      · exact Or.inl hq
      · exact Or.inr (List.mem_cons_of_mem _ hq)
    · simp only [setKey, if_neg h, List.mem_cons] at hq
      rcases hq with hq | hq
      · exact Or.inr (hq ▸ List.mem_cons_self _ _)
      · rcases ih hq with h' | h'
        · exact Or.inl h'
        · exact Or.inr (List.mem_cons_of_mem _ h')

theorem wfCard_setKey (c : Card) (k : String) (v : Value)
    (h : wfCard c) (hv : wfEntry (k, v)) : wfCard (setKey c k v) := by
  intro q hq
  rcases mem_setKey c k v q hq with h' | h'
  · exact h' ▸ hv
  · exact h q h'

theorem wfCard_delKey (c : Card) (k : String) (h : wfCard c) :
    wfCard (delKey c k) :=
  fun q hq => h q (List.mem_of_mem_filter hq)

theorem wfCard_setOrDelStr (c : Card) (k : String) (o : Option String)
    (h : wfCard c) (hk : ∀ t : String, wfEntry (k, Value.str t)) :
    wfCard (setOrDelStr c k o) := by
  cases o with
  | none => exact h
  | some t =>
    by_cases ht : t = ""
    · by_cases hc : hasKey c k
      · simpa [setOrDelStr, ht, hc] using wfCard_delKey c k h
      · simpa [setOrDelStr, ht, hc] using h
    · simpa [setOrDelStr, ht] using wfCard_setKey c k _ h (hk t)

theorem wfCard_setOrDelFlag (c : Card) (k : String) (o : Option Bool)
    (h : wfCard c) (hk : wfEntry (k, Value.bool true)) :
    wfCard (setOrDelFlag c k o) := by
  cases o with
  | none => exact h
  | some b =>
    cases b
    · by_cases hc : hasKey c k
      · simpa [setOrDelFlag, hc] using wfCard_delKey c k h
      · simpa [setOrDelFlag, hc] using h
    · simpa [setOrDelFlag] using wfCard_setKey c k _ h hk

theorem wfCard_updateFields (card : Card)
    (logo title content : Option String) (center partition : Option Bool)
    (h : wfCard card) :
    wfCard (updateFields card logo title content center partition) := by
  unfold updateFields
  apply wfCard_setOrDelFlag _ _ _ _ (by simp [wfEntry])
  apply wfCard_setOrDelFlag _ _ _ _ (by simp [wfEntry])
  have hcontent : ∀ c : Card, wfCard c →
      wfCard (match content with
        | some s => setKey c "content" (Value.blocks [s])
        | none => c) := by
    intro c hc
    cases content with
    | none => exact hc
    | some ss => exact wfCard_setKey c _ _ hc (by simp [wfEntry, isSingleBlock])
  apply hcontent
  apply wfCard_setOrDelStr _ _ _ _ (fun t => by simp [wfEntry])
  cases logo with
  | none => exact h
  | some l => exact wfCard_setKey card _ _ h (by simp [wfEntry])

theorem wfCard_add_card (cards : List Card) (logo title content : String)
    (center partition : Bool) :
    wfCard (add_card cards logo title content center partition).1 := by
  by_cases hl : logo = "" <;> by_cases hc : center <;>
    by_cases hp : partition <;> by_cases ht : title = "" <;>
    by_cases hco : content = "" <;>
    simp [add_card, hl, hc, hp, ht, hco, setKey, wfCard, wfEntry,
      isSingleBlock]

/-- C7: well-formedness (no false-valued `center`/`partition` key,
`content` a single-element block sequence in every card) is preserved
by `add_card`, `update_card`, `remove_card` and `reorder_card`. -/
theorem operations_preserve_wf (cards : List Card) (h : wfCards cards) :
    (∀ (logo title content : String) (center partition : Bool),
      wfCards (add_card cards logo title content center partition).2)
    ∧ (∀ (index : Int) (logo title content : Option String)
        (center partition : Option Bool),
      wfCards (update_card cards index logo title content center partition).2)
    ∧ (∀ index : Int, wfCards (remove_card cards index).2)
    ∧ (∀ from_idx to_idx : Int,
      wfCards (reorder_card cards from_idx to_idx).2) := by
  refine ⟨?_, ?_, ?_, ?_⟩
  · intro logo title content center partition c hc
    rcases List.mem_append.mp hc with h' | h'
    · exact h c h'
    · rw [List.mem_singleton.mp h']
      exact wfCard_add_card cards logo title content center partition
  · intro index logo title content center partition
    rw [update_card]
    by_cases hi : 0 ≤ index ∧ index < (cards.length : Int)
    · rw [dif_pos hi]
      intro c hc
      rcases List.mem_or_eq_of_mem_set hc with h' | h'
      · exact h c h'
      · rw [h']
        exact wfCard_updateFields _ _ _ _ _ _ (h _ (List.get_mem _ _ _))
    · rw [dif_neg hi]
      exact h
  · intro index
    rw [remove_card]
    by_cases hi : 0 ≤ index ∧ index < (cards.length : Int)
    · rw [dif_pos hi]
      exact fun c hc => h c ((List.eraseIdx_sublist cards index.toNat).mem hc)
    · rw [dif_neg hi]
      exact h
  · intro from_idx to_idx
    rw [reorder_card]
    by_cases h1 : 0 ≤ from_idx ∧ from_idx < (cards.length : Int)
    · rw [dif_pos h1]
      by_cases h2 : 0 ≤ to_idx ∧ to_idx < (cards.length : Int)
      · rw [if_pos h2]
        intro c hc
        have hle : to_idx.toNat ≤ (cards.eraseIdx from_idx.toNat).length := by
          have := List.length_eraseIdx_add_one
            (l := cards) (i := from_idx.toNat) (by omega)
          omega
        rcases (List.mem_insertIdx hle).mp hc with h' | h'
        · rw [h']
          exact h _ (List.get_mem _ _ _)
        · exact h c ((List.eraseIdx_sublist cards from_idx.toNat).mem h')
      · rw [if_neg h2]
        exact h
    · rw [dif_neg h1]
      exact h

/-- C7 witness. -/
theorem operations_preserve_wf_witness :
    wfCards [[("logo", Value.str "x"), ("content", Value.blocks [""])]]
    ∧ wfCards (add_card
        [[("logo", Value.str "x"), ("content", Value.blocks [""])]]
        "" "T" "body" true false).2
    ∧ wfCards (update_card
        [[("logo", Value.str "x"), ("content", Value.blocks [""])]]
        0 none none none (some false) (some true)).2
    ∧ wfCards (remove_card
        [[("logo", Value.str "x"), ("content", Value.blocks [""])]] 0).2
    ∧ wfCards (reorder_card
        [[("logo", Value.str "x"), ("content", Value.blocks [""])]] 0 0).2 := by
  have h := operations_preserve_wf
    [[("logo", Value.str "x"), ("content", Value.blocks [""])]]
    (by decide)
  exact ⟨by decide, h.1 "" "T" "body" true false,
    h.2.1 0 none none none (some false) (some true),
    h.2.2.1 0, h.2.2.2 0 0⟩


/-! ### Publish (C8)

`git_publish` (core.py lines 137–142) runs three external commands via
`subprocess.run(..., check=True)`.  The external `git` binary is
embedded as an abstract runner `List String → Int` giving each
command's exit status.  `check=True` raises `CalledProcessError`
carrying the command and its return code (output `None`: the call does
not capture output).  Each model operation returns the list of commands
actually executed, in execution order, together with the outcome. -/

/-- The data `subprocess.CalledProcessError` carries to the caller. -/
structure CalledProcessError where
  cmd : List String
  returncode : Int
  output : Option String
deriving DecidableEq, Repr

/-- `subprocess.run(cmd, check=True)`: raise on a non-zero exit. -/
def subprocess_run_check (runner : List String → Int) (cmd : List String) :
    Except CalledProcessError Unit :=
  if runner cmd = 0 then Except.ok ()
  else Except.error ⟨cmd, runner cmd, none⟩

def git_add_cmd : List String := ["git", "add", "_data/cards.yml"]

def git_commit_cmd (message : String) : List String :=
  ["git", "commit", "-m", message]

def git_push_cmd : List String := ["git", "push"]

/-- `git_publish`: stage, commit, push — sequentially, each step only
after the previous returned zero, aborting on the first failure. -/
def git_publish (runner : List String → Int) (message : String) :
    List (List String) × Except CalledProcessError Unit :=
  match subprocess_run_check runner git_add_cmd with
  | Except.error e => ([git_add_cmd], Except.error e)
  | Except.ok _ =>
    match subprocess_run_check runner (git_commit_cmd message) with
    | Except.error e =>
        ([git_add_cmd, git_commit_cmd message], Except.error e)
    | Except.ok _ =>
        ([git_add_cmd, git_commit_cmd message, git_push_cmd],
          subprocess_run_check runner git_push_cmd)

/-- C8: the three steps run strictly in order and each runs only if
every earlier step exited zero; when the commit step exits non-zero the
push command is never executed and the commit failure (command, exit
status, captured output — none is captured) is returned; any surfaced
failure is an executed command's non-zero exit. -/
theorem git_publish_spec (runner : List String → Int) (message : String) :
    ((git_publish runner message).1 =
      if runner git_add_cmd = 0 then
        if runner (git_commit_cmd message) = 0 then
          [git_add_cmd, git_commit_cmd message, git_push_cmd]
        else [git_add_cmd, git_commit_cmd message]
      else [git_add_cmd])
    ∧ (runner git_add_cmd = 0 → runner (git_commit_cmd message) ≠ 0 →
      git_push_cmd ∉ (git_publish runner message).1
      ∧ (git_publish runner message).2 =
        Except.error ⟨git_commit_cmd message,
          runner (git_commit_cmd message), none⟩)
    ∧ (∀ e : CalledProcessError,
      (git_publish runner message).2 = Except.error e →
      e.cmd ∈ (git_publish runner message).1
      ∧ runner e.cmd = e.returncode ∧ e.returncode ≠ 0) := by
  by_cases h1 : runner git_add_cmd = 0
  · by_cases h2 : runner (git_commit_cmd message) = 0
    · refine ⟨by simp [git_publish, subprocess_run_check, h1, h2],
        fun _ hc => absurd h2 hc, fun e he => ?_⟩
      by_cases h3 : runner git_push_cmd = 0
      · simp [git_publish, subprocess_run_check, h1, h2, h3] at he
      · simp only [git_publish, subprocess_run_check, if_pos h1, if_pos h2,
          if_neg h3, Except.error.injEq] at he
        subst he
        exact ⟨by simp [git_publish, subprocess_run_check, h1, h2, h3],
          rfl, h3⟩
    · refine ⟨by simp [git_publish, subprocess_run_check, h1, h2],
        fun _ _ => ⟨?_, ?_⟩, fun e he => ?_⟩
      · simp only [git_publish, subprocess_run_check, if_pos h1, if_neg h2]
        simp [git_push_cmd, git_add_cmd, git_commit_cmd]
      · simp [git_publish, subprocess_run_check, h1, h2]
      · simp only [git_publish, subprocess_run_check, if_pos h1, if_neg h2,
          Except.error.injEq] at he
        subst he
        exact ⟨by simp [git_publish, subprocess_run_check, h1, h2], rfl, h2⟩
  · refine ⟨by simp [git_publish, subprocess_run_check, h1],
      fun hadd _ => absurd hadd h1, fun e he => ?_⟩
    simp only [git_publish, subprocess_run_check, if_neg h1,
      Except.error.injEq] at he
    subst he
    exact ⟨by simp [git_publish, subprocess_run_check, h1], rfl, h1⟩

/-- C8 witness: a runner whose commit step exits 1. -/
theorem git_publish_spec_witness :
    (git_publish
      (fun cmd => if cmd = git_commit_cmd "Update cards" then 1 else 0)
      "Update cards").1 = [git_add_cmd, git_commit_cmd "Update cards"]
    ∧ git_push_cmd ∉ (git_publish
      (fun cmd => if cmd = git_commit_cmd "Update cards" then 1 else 0)
      "Update cards").1
    ∧ (git_publish
      (fun cmd => if cmd = git_commit_cmd "Update cards" then 1 else 0)
      "Update cards").2 =
      Except.error ⟨git_commit_cmd "Update cards", 1, none⟩ := by
  have h := git_publish_spec
    (fun cmd => if cmd = git_commit_cmd "Update cards" then 1 else 0)
    "Update cards"
  have hb := h.2.1 (by decide) (by decide)
  refine ⟨?_, hb.1, ?_⟩
  · rw [h.1]
    decide
  · rw [hb.2]
    simp


/-! ### Content preview (C9)

`content_preview` (core.py lines 145–160) joins the `content` blocks,
strips `<[^>]+>` tag spans, replaces the `&#x2022;` entity by `*`,
replaces newlines by spaces, strips, collapses whitespace runs and
truncates.  Python strings are embedded as `List Char`; the whitespace
class is the ASCII part of Python's `str.strip`/`\s`. -/

def isSpaceChar (c : Char) : Bool :=
  c == ' ' || c == '\t' || c == '\n' || c == '\r' || c == '\x0b' || c == '\x0c'

/-- One left-to-right pass of `re.sub(r"<[^>]+>", "", text)`.  The
accumulator holds the characters seen since an as yet unclosed `<`
(reversed, the `<` itself excluded); `[^>]+` needs at least one
character, so `<>` is not a match, and an unclosed `<` is emitted
verbatim at the end of input. -/
def stripTagsAux : Option (List Char) → List Char → List Char
  | none, [] => []
  | some buf, [] => '<' :: buf.reverse
  | none, c :: rest =>
      if c = '<' then stripTagsAux (some []) rest
      else c :: stripTagsAux none rest
  | some buf, c :: rest =>
      if c = '>' then
        if buf = [] then '<' :: '>' :: stripTagsAux none rest
        else stripTagsAux none rest
      else stripTagsAux (some (c :: buf)) rest

def stripTags (s : List Char) : List Char := stripTagsAux none s

/-- `text.replace("&#x2022;", "*")`, non-overlapping, left to right. -/
def replaceBullet : List Char → List Char
  | '&' :: '#' :: 'x' :: '2' :: '0' :: '2' :: '2' :: ';' :: rest =>
      '*' :: replaceBullet rest
  | c :: rest => c :: replaceBullet rest
  | [] => []

/-- `text.replace("\n", " ")`. -/
def newlineToSpace (s : List Char) : List Char :=
  s.map (fun c => if c = '\n' then ' ' else c)

/-- Leading whitespace removal (half of `str.strip()`). -/
def dropLead (s : List Char) : List Char := s.dropWhile isSpaceChar

/-- Trailing whitespace removal (the other half of `str.strip()`). -/
def dropTrail (s : List Char) : List Char :=
  (s.reverse.dropWhile isSpaceChar).reverse

/-- `text.strip()`. -/
def pyStrip (s : List Char) : List Char := dropTrail (dropLead s)

/-- `re.sub(r"\s+", " ", text)`: the flag records whether the previous
character was whitespace (in which case further run members are
dropped). -/
def collapseAux : Bool → List Char → List Char
  | _, [] => []
  | prev, c :: rest =>
      if isSpaceChar c then
        if prev then collapseAux true rest
        else ' ' :: collapseAux true rest
      else c :: collapseAux false rest

def collapseWs (s : List Char) : List Char := collapseAux false s

/-- `text[:max_len] + "..."` when over the limit. -/
def truncateEllipsis (maxLen : Nat) (s : List Char) : List Char :=
  if s.length > maxLen then s.take maxLen ++ ['.', '.', '.'] else s

/-- `card.get("content", "")` followed by the list join
(`" ".join(str(item) for item in raw)` when the value is a list,
`str(raw)` otherwise). -/
def contentText (card : Card) : String :=
  match getKey card "content" with
  | some (Value.blocks l) => String.intercalate " " l
  | some (Value.str s) => s
  | some (Value.bool b) => if b then "True" else "False"
  | none => ""

/-- `content_preview` (core.py lines 145–160), in source order: join,
strip tags, replace the bullet entity, newlines to spaces, strip,
collapse whitespace runs, truncate. -/
def content_preview (card : Card) (max_len : Nat) : String :=
  String.mk (truncateEllipsis max_len (collapseWs (pyStrip (newlineToSpace
    (replaceBullet (stripTags (contentText card).toList))))))

/-- The pipeline in the order the specification describes it: join the
blocks with spaces, remove angle-bracket spans, replace the bullet
entity, collapse whitespace runs to single spaces, trim, truncate. -/
def content_preview_spec (blocks : List String) (maxLen : Nat) : String :=
  String.mk (truncateEllipsis maxLen (pyStrip (collapseWs
    (replaceBullet (stripTags (String.intercalate " " blocks).toList)))))


/-! ### Whitespace-normalisation lemmas for C9 -/

theorem isSpaceChar_nlChar (c : Char) :
    isSpaceChar (if c = '\n' then ' ' else c) = isSpaceChar c := by
  by_cases h : c = '\n'
  · subst h
    decide
  · rw [if_neg h]

theorem nlChar_eq_self (c : Char) (h : isSpaceChar c = false) :
    (if c = '\n' then ' ' else c) = c := by
  by_cases hc : c = '\n'
  · subst hc
    simp [isSpaceChar] at h
  · rw [if_neg hc]

theorem collapseAux_newlineToSpace (s : List Char) :
    ∀ b, collapseAux b (newlineToSpace s) = collapseAux b s := by
  induction s with
  | nil => intro b; rfl
  | cons c rest ih =>
    intro b
    by_cases hsp : isSpaceChar c
    · simp only [newlineToSpace, List.map_cons, collapseAux,
        isSpaceChar_nlChar, hsp, if_true]
      cases b
      · simpa [newlineToSpace] using ih true
      · simpa [newlineToSpace] using ih true
    · rw [Bool.not_eq_true] at hsp
      simp only [newlineToSpace, List.map_cons, collapseAux,
        isSpaceChar_nlChar, hsp, Bool.false_eq_true, if_false,
        nlChar_eq_self c hsp]
      simpa [newlineToSpace] using ih false

theorem dropWhileSpace_newlineToSpace (s : List Char) :
    (newlineToSpace s).dropWhile isSpaceChar =
      newlineToSpace (s.dropWhile isSpaceChar) := by
  induction s with
  | nil => rfl
  | cons c rest ih =>
    by_cases hsp : isSpaceChar c
    · simp only [newlineToSpace, List.map_cons, List.dropWhile_cons,
        isSpaceChar_nlChar, hsp, if_true]
      simpa [newlineToSpace] using ih
    · rw [Bool.not_eq_true] at hsp
      simp only [newlineToSpace, List.map_cons, List.dropWhile_cons,
        isSpaceChar_nlChar, hsp, Bool.false_eq_true, if_false]

theorem pyStrip_newlineToSpace (s : List Char) :
    pyStrip (newlineToSpace s) = newlineToSpace (pyStrip s) := by
  unfold pyStrip dropTrail dropLead
  rw [dropWhileSpace_newlineToSpace]
  have hrev : ∀ u : List Char,
      (newlineToSpace u).reverse = newlineToSpace u.reverse := by
    intro u
    unfold newlineToSpace
    rw [List.map_reverse]
  rw [hrev, dropWhileSpace_newlineToSpace, hrev]

/-- The state of `collapseAux` after consuming a list: the flag after
the last character (the initial flag if none). -/
def endSp : Bool → List Char → Bool
  | b, [] => b
  | _, c :: rest => endSp (isSpaceChar c) rest

theorem endSp_append (xs : List Char) :
    ∀ (b : Bool) (ys : List Char),
      endSp b (xs ++ ys) = endSp (endSp b xs) ys := by
  induction xs with
  | nil => intro b ys; rfl
  | cons c rest ih =>
    intro b ys
    simp only [List.cons_append, endSp]
    exact ih (isSpaceChar c) ys

theorem collapseAux_cons (b : Bool) (c : Char) (rest : List Char) :
    collapseAux b (c :: rest) =
      if isSpaceChar c then
        (if b then collapseAux true rest else ' ' :: collapseAux true rest)
      else c :: collapseAux false rest := rfl

theorem endSp_cons (b : Bool) (c : Char) (rest : List Char) :
    endSp b (c :: rest) = endSp (isSpaceChar c) rest := rfl

theorem collapseAux_append (xs : List Char) :
    ∀ (b : Bool) (ys : List Char),
      collapseAux b (xs ++ ys) =
        collapseAux b xs ++ collapseAux (endSp b xs) ys := by
  induction xs with
  | nil => intro b ys; rfl
  | cons c rest ih =>
    intro b ys
    rw [List.cons_append, collapseAux_cons, collapseAux_cons b c rest,
      endSp_cons]
    by_cases hsp : isSpaceChar c
    · rw [if_pos hsp, if_pos hsp, hsp]
      cases b
      · rw [if_neg (Bool.false_ne_true), if_neg (Bool.false_ne_true),
          ih true ys]
        rfl
      · rw [if_pos rfl, if_pos rfl, ih true ys]
    · rw [Bool.not_eq_true] at hsp
      rw [if_neg (by simp [hsp]), if_neg (by simp [hsp]), hsp,
        ih false ys]
      rfl

theorem collapseAux_true_dropLead (u : List Char) :
    collapseAux true u = collapseAux false (dropLead u) := by
  induction u with
  | nil => rfl
  | cons c rest ih =>
    by_cases hsp : isSpaceChar c
    · simp only [collapseAux, hsp, if_true, dropLead, List.dropWhile_cons]
      simpa [dropLead] using ih
    · rw [Bool.not_eq_true] at hsp
      simp only [collapseAux, hsp, Bool.false_eq_true, if_false, dropLead,
        List.dropWhile_cons]

theorem dropWhileSpace_head_false (u : List Char) :
    ∀ c w, u.dropWhile isSpaceChar = c :: w → isSpaceChar c = false := by
  induction u with
  | nil => intro c w h; cases h
  | cons a rest ih =>
    intro c w h
    by_cases ha : isSpaceChar a
    · rw [List.dropWhile_cons, if_pos ha] at h
      exact ih c w h
    · rw [Bool.not_eq_true] at ha
      rw [List.dropWhile_cons, ha] at h
      simp only [Bool.false_eq_true, if_false] at h
      cases h
      exact ha

theorem dropLead_collapseWs_of_dropLead (v : List Char) :
    dropLead (collapseWs (dropLead v)) = collapseWs (dropLead v) := by
  cases h : dropLead v with
  | nil => rfl
  | cons c w =>
    have hc : isSpaceChar c = false := dropWhileSpace_head_false v c w h
    simp only [collapseWs, collapseAux, hc, Bool.false_eq_true, if_false,
      dropLead, List.dropWhile_cons]

theorem dropLead_collapseWs (u : List Char) :
    dropLead (collapseWs u) = collapseWs (dropLead u) := by
  cases u with
  | nil => rfl
  | cons c rest =>
    by_cases hsp : isSpaceChar c
    · have h1 : collapseWs (c :: rest) = ' ' :: collapseAux true rest := by
        simp [collapseWs, collapseAux, hsp]
      rw [h1]
      have h2 : dropLead (' ' :: collapseAux true rest) =
          dropLead (collapseAux true rest) := by
        simp [dropLead, List.dropWhile_cons, isSpaceChar]
      rw [h2, collapseAux_true_dropLead rest]
      have h3 : dropLead (c :: rest) = dropLead rest := by
        simp [dropLead, List.dropWhile_cons, hsp]
      rw [h3]
      exact dropLead_collapseWs_of_dropLead rest
    · rw [Bool.not_eq_true] at hsp
      have h1 : collapseWs (c :: rest) = c :: collapseAux false rest := by
        simp [collapseWs, collapseAux, hsp]
      have h3 : dropLead (c :: rest) = c :: rest := by
        simp [dropLead, List.dropWhile_cons, hsp]
      rw [h1, h3]
      simp only [dropLead, List.dropWhile_cons, hsp, Bool.false_eq_true,
        if_false]
      rw [← h1]


theorem collapseAux_singleton_notSpace (b : Bool) (c : Char)
    (h : isSpaceChar c = false) : collapseAux b [c] = [c] := by
  rw [collapseAux_cons, if_neg (by simp [h])]
  rfl

theorem collapseAux_allSpace (r : List Char) :
    r ≠ [] → (∀ c ∈ r, isSpaceChar c = true) →
      collapseAux true r = [] ∧ collapseAux false r = [' '] := by
  induction r with
  | nil => intro hne _; exact absurd rfl hne
  | cons c rest ih =>
    intro _ h
    have hc : isSpaceChar c = true := h c (List.mem_cons_self _ _)
    cases rest with
    | nil =>
      constructor
      · rw [collapseAux_cons, if_pos hc, if_pos rfl]
        rfl
      · rw [collapseAux_cons, if_pos hc, if_neg (Bool.false_ne_true)]
        rfl
    | cons d rest' =>
      have ih' := ih (by simp)
        (fun x hx => h x (List.mem_cons_of_mem _ hx))
      constructor
      · rw [collapseAux_cons, if_pos hc, if_pos rfl]
        exact ih'.1
      · rw [collapseAux_cons, if_pos hc, if_neg (Bool.false_ne_true), ih'.1]

theorem endSp_allSpace (r : List Char) :
    r ≠ [] → (∀ c ∈ r, isSpaceChar c = true) →
      ∀ b, endSp b r = true := by
  induction r with
  | nil => intro hne _; exact absurd rfl hne
  | cons c rest ih =>
    intro _ h b
    rw [endSp_cons]
    cases rest with
    | nil => exact h c (List.mem_cons_self _ _)
    | cons d rest' =>
      exact ih (by simp) (fun x hx => h x (List.mem_cons_of_mem _ hx)) _

theorem endSp_reverse_head_false (c : Char) (w : List Char)
    (h : isSpaceChar c = false) (b : Bool) :
    endSp b ((c :: w).reverse) = false := by
  rw [List.reverse_cons, endSp_append, endSp_cons]
  simpa [endSp] using h

theorem dropLead_of_dropWhile (u : List Char) :
    dropLead (u.dropWhile isSpaceChar) = u.dropWhile isSpaceChar := by
  cases h : u.dropWhile isSpaceChar with
  | nil => rfl
  | cons d w =>
    have hd : isSpaceChar d = false := dropWhileSpace_head_false u d w h
    simp [dropLead, List.dropWhile_cons, hd]

theorem collapseWs_reverse_fuel :
    ∀ (n : Nat) (s : List Char), s.length ≤ n →
      collapseWs s.reverse = (collapseWs s).reverse := by
  intro n
  induction n with
  | zero =>
    intro s hs
    have : s = [] := List.length_eq_zero.mp (Nat.le_zero.mp hs)
    subst this
    rfl
  | succ n ih =>
    intro s hs
    cases s with
    | nil => rfl
    | cons c t =>
      by_cases hsp : isSpaceChar c
      · -- leading whitespace: peel the whole leading run
        have hsplit : (c :: t).takeWhile isSpaceChar ++
            (c :: t).dropWhile isSpaceChar = c :: t :=
          List.takeWhile_append_dropWhile isSpaceChar (c :: t)
        have hrun_mem : ∀ x ∈ (c :: t).takeWhile isSpaceChar,
            isSpaceChar x = true := fun x hx => List.mem_takeWhile_imp hx
        have hrun_ne : (c :: t).takeWhile isSpaceChar ≠ [] := by
          rw [List.takeWhile_cons, if_pos hsp]
          simp
        have hlen' : ((c :: t).dropWhile isSpaceChar).length ≤ n := by
          have hL := congrArg List.length hsplit
          rw [List.length_append] at hL
          have h1 : 0 < ((c :: t).takeWhile isSpaceChar).length :=
            List.length_pos.mpr hrun_ne
          simp only [List.length_cons] at hL hs
          omega
        have hdl : dropLead ((c :: t).dropWhile isSpaceChar) =
            (c :: t).dropWhile isSpaceChar := dropLead_of_dropWhile (c :: t)
        -- (A) collapse of the original
        have hA : collapseWs (c :: t) =
            ' ' :: collapseAux false ((c :: t).dropWhile isSpaceChar) := by
          conv =>
            lhs
            rw [collapseWs, ← hsplit]
          rw [collapseAux_append]
          rw [(collapseAux_allSpace _ hrun_ne hrun_mem).2,
            endSp_allSpace _ hrun_ne hrun_mem false,
            collapseAux_true_dropLead, hdl]
          rfl
        -- (B) collapse of the reverse
        have hB : collapseWs (c :: t).reverse =
            collapseWs ((c :: t).dropWhile isSpaceChar).reverse ++ [' '] := by
          conv =>
            lhs
            rw [collapseWs, ← hsplit]
          rw [List.reverse_append, collapseAux_append]
          have hrev_ne : ((c :: t).takeWhile isSpaceChar).reverse ≠ [] := by
            simpa using hrun_ne
          have hrev_mem : ∀ x ∈ ((c :: t).takeWhile isSpaceChar).reverse,
              isSpaceChar x = true := by
            intro x hx
            exact hrun_mem x (List.mem_reverse.mp hx)
          have hend : endSp false
              (((c :: t).dropWhile isSpaceChar).reverse) = false := by
            cases ht' : (c :: t).dropWhile isSpaceChar with
            | nil => rfl
            | cons d w =>
              exact endSp_reverse_head_false d w
                (dropWhileSpace_head_false (c :: t) d w ht') false
          rw [hend, (collapseAux_allSpace _ hrev_ne hrev_mem).2]
          rfl
        rw [hB, ih _ hlen', hA]
        rw [← List.reverse_cons]
        rfl
      · -- non-space head
        rw [Bool.not_eq_true] at hsp
        have hlen : t.length ≤ n := by
          simp only [List.length_cons] at hs
          omega
        have h1 : collapseWs (c :: t) = c :: collapseAux false t := by
          rw [collapseWs, collapseAux_cons, if_neg (by simp [hsp])]
        rw [List.reverse_cons, collapseWs, collapseAux_append,
          collapseAux_singleton_notSpace _ c hsp, h1, List.reverse_cons]
        have h2 : collapseAux false t.reverse = (collapseAux false t).reverse :=
          ih t hlen
        rw [h2]

theorem collapseWs_reverse (s : List Char) :
    collapseWs s.reverse = (collapseWs s).reverse :=
  collapseWs_reverse_fuel s.length s le_rfl

theorem collapseWs_dropTrail (v : List Char) :
    collapseWs (dropTrail v) = dropTrail (collapseWs v) := by
  show collapseWs (dropLead v.reverse).reverse =
    ((collapseWs v).reverse.dropWhile isSpaceChar).reverse
  rw [collapseWs_reverse, ← dropLead_collapseWs, collapseWs_reverse]
  rfl

/-- Stripping before collapsing (as the code does) equals collapsing
before trimming (as the specification phrases it). -/
theorem collapseWs_pyStrip (t : List Char) :
    collapseWs (pyStrip t) = pyStrip (collapseWs t) := by
  unfold pyStrip
  rw [collapseWs_dropTrail, ← dropLead_collapseWs]

theorem content_preview_refines (card : Card) (bs : List String) (maxLen : Nat)
    (h : getKey card "content" = some (Value.blocks bs)) :
    content_preview card maxLen = content_preview_spec bs maxLen := by
  unfold content_preview content_preview_spec contentText
  rw [h]
  rw [pyStrip_newlineToSpace]
  have h2 : ∀ u : List Char, collapseWs (newlineToSpace u) = collapseWs u :=
    fun u => collapseAux_newlineToSpace u false
  rw [h2, collapseWs_pyStrip]


/-- C9: `content_preview` joins the content blocks with spaces, removes
angle-bracket spans, replaces `&#x2022;` by `*`, collapses whitespace
runs to single spaces, trims, and truncates to `max_len` characters
with an ellipsis when over the limit (the pipeline in the
specification's order, `content_preview_spec`); in particular on a card
whose content is `"<p>Hello&#x2022;world</p>\n\nfoo"` with
`max_len = 80` it returns `"Hello*world foo"`. -/
theorem content_preview_correct :
    (∀ (card : Card) (bs : List String) (maxLen : Nat),
      getKey card "content" = some (Value.blocks bs) →
      content_preview card maxLen = content_preview_spec bs maxLen)
    ∧ content_preview
        [("content", Value.blocks ["<p>Hello&#x2022;world</p>\n\nfoo"])] 80 =
      "Hello*world foo" :=
  ⟨content_preview_refines, by decide⟩

/-- C9 witness. -/
theorem content_preview_correct_witness :
    content_preview
        [("content", Value.blocks ["<p>Hello&#x2022;world</p>\n\nfoo"])] 80 =
      content_preview_spec ["<p>Hello&#x2022;world</p>\n\nfoo"] 80 :=
  content_preview_correct.1 _ _ 80 (by decide)


/-! ### Store round-trip (C1)

`load_cards`/`save_cards` (core.py lines 25–41) delegate parsing and
re-serialisation to ruamel.yaml, a third-party round-trip library that
is not part of this repository; only the `textwrap.dedent` fix-up in
`save_cards` is the repository's own logic.  The document text is
embedded as `List Char`; lines are split/joined on `'\n'`. -/

/-- Split on newline characters; always returns at least one line. -/
def splitNl : List Char → List (List Char)
  | [] => [[]]
  | c :: rest =>
      if c = '\n' then [] :: splitNl rest
      else
        match splitNl rest with
        | l :: ls => (c :: l) :: ls
        | [] => [[c]]

/-- Join lines with newline characters (inverse of `splitNl`). -/
def joinNl : List (List Char) → List Char
  | [] => []
  | [l] => l
  | l :: ls => l ++ '\n' :: joinNl ls

/-- The `[ \t]` class of CPython's `textwrap.dedent` regexes. -/
def isIndentChar (c : Char) : Bool := c == ' ' || c == '\t'

/-- A line consisting solely of whitespace (`^[ \t]+$`): `dedent`
normalises such lines to empty ones. -/
def wsOnlyLine : List Char → Bool
  | [] => false
  | l => l.all isIndentChar

/-- A line with a non-whitespace character (matched by dedent's
`(^[ \t]*)(?:[^ \t\n])` when computing indents). -/
def lineHasContent (l : List Char) : Bool := l.any (fun c => !(isIndentChar c))

/-- A line's leading whitespace. -/
def lineIndent (l : List Char) : List Char := l.takeWhile isIndentChar

/-- Longest common prefix of two indents (dedent's margin merge). -/
def commonPrefix : List Char → List Char → List Char
  | a :: as, b :: bs => if a = b then a :: commonPrefix as bs else []
  | _, _ => []

/-- dedent's margin: the common prefix of the indents of all lines with
content (empty when there is none, in which case nothing is stripped). -/
def marginOf (lines : List (List Char)) : List Char :=
  match (lines.filter lineHasContent).map lineIndent with
  | [] => []
  | i :: is => is.foldl commonPrefix i

/-- `textwrap.dedent` on the line list: normalise whitespace-only lines
to empty, compute the margin, strip it from every line that starts
with it. -/
def dedentLines (lines : List (List Char)) : List (List Char) :=
  let norm := lines.map (fun l => if wsOnlyLine l then [] else l)
  let m := marginOf norm
  norm.map (fun l => if m.isPrefixOf l then l.drop m.length else l)

/-- Modelled from CPython's `textwrap.dedent`, which core.py calls in
`save_cards`: remove the longest common leading `[ \t]` whitespace from
all lines, ignoring (and blanking) whitespace-only lines. -/
def textwrap_dedent (s : List Char) : List Char :=
  joinNl (dedentLines (splitNl s))

/-- Modelled from the spec: the round-trip document ruamel.yaml's
`load` produces — the library (not in src/) preserves comments, key
order, quote style and formatting, so the loaded document determines
the original text. -/
structure YamlDoc where
  text : List Char
deriving DecidableEq, Repr

/-- Modelled from the spec: `YAML.load` of the `_yaml()` instance
(core.py lines 16–29) parses preserving all formatting. -/
def ruamel_load (s : List Char) : YamlDoc := ⟨s⟩

/-- Modelled from the spec and the `save_cards` comment (core.py lines
37–38): `YAML.dump` with `indent(mapping=2, sequence=4, offset=2)`
re-emits the preserved document, adding a 2-space indent to the
top-level sequence, i.e. prefixing every non-empty line with two
spaces. -/
def ruamel_dump (d : YamlDoc) : List Char :=
  joinNl ((splitNl d.text).map (fun l => if l = [] then [] else ' ' :: ' ' :: l))

/-- `load_cards` (core.py lines 25–29) on the file text. -/
def load_cards (s : List Char) : YamlDoc := ruamel_load s

/-- `save_cards` (core.py lines 32–41): dump, then `textwrap.dedent`
to remove the extra top-level indent, then write. -/
def save_cards (d : YamlDoc) : List Char := textwrap_dedent (ruamel_dump d)


theorem splitNl_ne_nil (s : List Char) : splitNl s ≠ [] := by
  cases s with
  | nil => simp [splitNl]
  | cons c rest =>
    by_cases h : c = '\n'
    · simp [splitNl, h]
    · simp only [splitNl, if_neg h]
      cases hs : splitNl rest with
      | nil => simp
      | cons l ls => simp

theorem joinNl_cons (l : List Char) (ls : List (List Char)) (h : ls ≠ []) :
    joinNl (l :: ls) = l ++ '\n' :: joinNl ls := by
  cases ls with
  | nil => exact absurd rfl h
  | cons l2 ls2 => rfl

theorem joinNl_splitNl (s : List Char) : joinNl (splitNl s) = s := by
  induction s with
  | nil => rfl
  | cons c rest ih =>
    by_cases h : c = '\n'
    · subst h
      rw [show splitNl ('\n' :: rest) = [] :: splitNl rest from by
        simp [splitNl]]
      rw [joinNl_cons _ _ (splitNl_ne_nil rest)]
      simp [ih]
    · simp only [splitNl, if_neg h]
      cases hs : splitNl rest with
      | nil => exact absurd hs (splitNl_ne_nil rest)
      | cons l ls =>
        rw [hs] at ih
        cases ls with
        | nil =>
          simp only [joinNl] at ih ⊢
          rw [ih]
        | cons l2 ls2 =>
          rw [joinNl_cons _ _ (by simp)] at ih
          rw [joinNl_cons _ _ (by simp), List.cons_append, ih]

theorem noNl_splitNl (s : List Char) : ∀ l ∈ splitNl s, '\n' ∉ l := by
  induction s with
  | nil =>
    intro l hl
    simp only [splitNl, List.mem_singleton] at hl
    subst hl
    simp
  | cons c rest ih =>
    intro l hl
    by_cases h : c = '\n'
    · subst h
      simp only [splitNl, if_pos rfl] at hl
      cases hl with
      | head => simp
      | tail b hl => exact ih l hl
    · simp only [splitNl, if_neg h] at hl
      cases hs : splitNl rest with
      | nil => exact absurd hs (splitNl_ne_nil rest)
      | cons l0 ls =>
        rw [hs] at hl
        have hl' := List.mem_cons.mp hl
        cases hl' with
        | inl he =>
          rw [he]
          intro hmm
          rcases List.mem_cons.mp hmm with heq | hin
          · exact h heq.symm
          · exact ih l0 (hs ▸ List.mem_cons_self _ _) hin
        | inr hmem => exact ih l (hs ▸ List.mem_cons_of_mem _ hmem)

theorem splitNl_noNl (l : List Char) (h : '\n' ∉ l) : splitNl l = [l] := by
  induction l with
  | nil => rfl
  | cons c w ih =>
    have hc : ¬ c = '\n' := fun e => h (e ▸ List.mem_cons_self _ _)
    simp only [splitNl, if_neg hc]
    rw [ih (fun hm => h (List.mem_cons_of_mem _ hm))]

theorem splitNl_append_newline (l : List Char) (X : List Char)
    (h : '\n' ∉ l) : splitNl (l ++ '\n' :: X) = l :: splitNl X := by
  induction l with
  | nil => simp [splitNl]
  | cons c w ih =>
    have hc : ¬ c = '\n' := fun e => h (e ▸ List.mem_cons_self _ _)
    simp only [List.cons_append, splitNl, if_neg hc, List.append_eq]
    rw [ih (fun hm => h (List.mem_cons_of_mem _ hm))]

theorem splitNl_joinNl (ls : List (List Char)) (hne : ls ≠ [])
    (h : ∀ l ∈ ls, '\n' ∉ l) : splitNl (joinNl ls) = ls := by
  induction ls with
  | nil => exact absurd rfl hne
  | cons l rest ih =>
    cases rest with
    | nil => exact splitNl_noNl l (h l (List.mem_cons_self _ _))
    | cons l2 ls2 =>
      rw [joinNl_cons _ _ (by simp),
        splitNl_append_newline l _ (h l (List.mem_cons_self _ _)),
        ih (by simp) (fun x hx => h x (List.mem_cons_of_mem _ hx))]


theorem prefix_commonPrefix (m : List Char) :
    ∀ (a b : List Char), List.IsPrefix m a → List.IsPrefix m b →
      List.IsPrefix m (commonPrefix a b) := by
  induction m with
  | nil => intro a b _ _; exact List.nil_prefix
  | cons x m' ih =>
    intro a b ha hb
    obtain ⟨ta, rfl⟩ := ha
    obtain ⟨tb, rfl⟩ := hb
    simp only [List.cons_append, commonPrefix, if_pos rfl]
    exact List.cons_prefix_cons.mpr
      ⟨rfl, ih _ _ (List.prefix_append m' ta) (List.prefix_append m' tb)⟩

theorem commonPrefix_prefix_left (a : List Char) :
    ∀ b : List Char, List.IsPrefix (commonPrefix a b) a := by
  induction a with
  | nil => intro b; exact List.nil_prefix
  | cons c as ih =>
    intro b
    cases b with
    | nil => exact List.nil_prefix
    | cons d bs =>
      by_cases h : c = d
      · simp only [commonPrefix, if_pos h]
        exact List.cons_prefix_cons.mpr ⟨rfl, ih bs⟩
      · simp only [commonPrefix, if_neg h]
        exact List.nil_prefix

theorem commonPrefix_prefix_right (a : List Char) :
    ∀ b : List Char, List.IsPrefix (commonPrefix a b) b := by
  induction a with
  | nil => intro b; exact List.nil_prefix
  | cons c as ih =>
    intro b
    cases b with
    | nil => exact List.nil_prefix
    | cons d bs =>
      by_cases h : c = d
      · simp only [commonPrefix, if_pos h]
        exact List.cons_prefix_cons.mpr ⟨h, ih bs⟩
      · simp only [commonPrefix, if_neg h]
        exact List.nil_prefix

theorem foldl_commonPrefix_prefix_init (is : List (List Char)) :
    ∀ i : List Char, List.IsPrefix (is.foldl commonPrefix i) i := by
  induction is with
  | nil => intro i; exact List.prefix_refl i
  | cons j is' ih =>
    intro i
    exact (ih (commonPrefix i j)).trans (commonPrefix_prefix_left i j)

theorem foldl_commonPrefix_prefix_mem (is : List (List Char)) :
    ∀ (i j : List Char), j ∈ is →
      List.IsPrefix (is.foldl commonPrefix i) j := by
  induction is with
  | nil => intro i j hj; cases hj
  | cons j' is' ih =>
    intro i j hj
    rcases List.mem_cons.mp hj with he | hm
    · rw [he]
      exact (foldl_commonPrefix_prefix_init is' (commonPrefix i j')).trans
        (commonPrefix_prefix_right i j')
    · exact ih (commonPrefix i j') j hm

theorem prefix_foldl_commonPrefix (m : List Char) (is : List (List Char)) :
    ∀ i : List Char, List.IsPrefix m i → (∀ j ∈ is, List.IsPrefix m j) →
      List.IsPrefix m (is.foldl commonPrefix i) := by
  induction is with
  | nil => intro i hi _; exact hi
  | cons j is' ih =>
    intro i hi hall
    exact ih (commonPrefix i j)
      (prefix_commonPrefix m i j hi (hall j (List.mem_cons_self _ _)))
      (fun x hx => hall x (List.mem_cons_of_mem _ hx))

/-- When every content line's indent extends `m₀` and some content line
has exactly indent `m₀`, the dedent margin is `m₀`. -/
theorem marginOf_eq (lines : List (List Char)) (m₀ : List Char)
    (hall : ∀ l ∈ lines, lineHasContent l = true →
      List.IsPrefix m₀ (lineIndent l))
    (hex : ∃ l ∈ lines, lineHasContent l = true ∧ lineIndent l = m₀) :
    marginOf lines = m₀ := by
  have hmem : m₀ ∈ (lines.filter lineHasContent).map lineIndent := by
    obtain ⟨l, hl, hc, hi⟩ := hex
    exact List.mem_map.mpr ⟨l, List.mem_filter.mpr ⟨hl, hc⟩, hi⟩
  have hallind : ∀ x ∈ (lines.filter lineHasContent).map lineIndent,
      List.IsPrefix m₀ x := by
    intro x hx
    obtain ⟨l, hl, rfl⟩ := List.mem_map.mp hx
    exact hall l (List.mem_filter.mp hl).1
      (by simpa using (List.mem_filter.mp hl).2)
  unfold marginOf
  cases hind : (lines.filter lineHasContent).map lineIndent with
  | nil => rw [hind] at hmem; cases hmem
  | cons i is =>
    rw [hind] at hmem hallind
    have h1 : List.IsPrefix m₀ (is.foldl commonPrefix i) :=
      prefix_foldl_commonPrefix m₀ is i
        (hallind i (List.mem_cons_self _ _))
        (fun j hj => hallind j (List.mem_cons_of_mem _ hj))
    have h2 : List.IsPrefix (is.foldl commonPrefix i) m₀ := by
      cases List.mem_cons.mp hmem with
      | inl he => rw [he]; exact foldl_commonPrefix_prefix_init is i
      | inr hm => exact foldl_commonPrefix_prefix_mem is i m₀ hm
    exact h2.eq_of_length (Nat.le_antisymm h2.length_le h1.length_le)


theorem wsOnlyLine_cons (c : Char) (rest : List Char) :
    wsOnlyLine (c :: rest) = (c :: rest).all isIndentChar := rfl

theorem lineIndent_indent2 (l : List Char) :
    lineIndent (' ' :: ' ' :: l) = ' ' :: ' ' :: lineIndent l := rfl

theorem lineHasContent_indent2 (l : List Char) :
    lineHasContent (' ' :: ' ' :: l) = lineHasContent l := rfl

/-- The per-line effect of dedent on the dump of a line: the two added
spaces are recognised as the margin and stripped again. -/
theorem dedent_line_point (l₀ : List Char) :
    (if ([' ', ' '] : List Char).isPrefixOf
        (if l₀ = [] then [] else ' ' :: ' ' :: l₀) = true then
      (if l₀ = [] then [] else ' ' :: ' ' :: l₀).drop
        ([' ', ' '] : List Char).length
    else (if l₀ = [] then [] else ' ' :: ' ' :: l₀)) = l₀ := by
  by_cases h0 : l₀ = []
  · rw [h0]
    decide
  · have hp : ([' ', ' '] : List Char).isPrefixOf (' ' :: ' ' :: l₀) = true :=
      List.isPrefixOf_iff_prefix.mpr ⟨l₀, rfl⟩
    rw [if_neg h0, if_pos hp]
    rfl

/-- C1 counterexample: on a file containing a whitespace-only line,
`save_cards` is not byte-identical to the original — `textwrap.dedent`
blanks `^[ \t]+$` lines, so the single-space line comes back empty. -/
theorem load_save_roundtrip_counterexample :
    save_cards (load_cards ("- logo: a\n \n- logo: b").toList) =
      ("- logo: a\n\n- logo: b").toList
    ∧ save_cards (load_cards ("- logo: a\n \n- logo: b").toList) ≠
      ("- logo: a\n \n- logo: b").toList := by
  constructor <;> decide

/-- C1 amended: loading the configuration text and immediately saving
it writes back the original text byte for byte, for every file with no
whitespace-only line (dedent normalises those to empty lines, the
failure shown by the counterexample) and some unindented line with
content (true of a top-level YAML sequence, whose items start at
column 0): the modelled round-trip engine preserves the document and
`save_cards`'s dedent removes exactly the 2-space top-level indent the
dump settings introduce. -/
theorem load_save_roundtrip (s : List Char)
    (hws : ∀ l ∈ splitNl s, wsOnlyLine l = false)
    (htop : ∃ l ∈ splitNl s, lineHasContent l = true ∧ lineIndent l = []) :
    save_cards (load_cards s) = s := by
  have hnoNl := noNl_splitNl s
  have hne := splitNl_ne_nil s
  have hmapNoNl : ∀ l ∈ (splitNl s).map
      (fun l => if l = [] then [] else ' ' :: ' ' :: l), '\n' ∉ l := by
    intro l hl
    obtain ⟨l₀, hl₀, rfl⟩ := List.mem_map.mp hl
    by_cases h0 : l₀ = []
    · simp [h0]
    · simp only [if_neg h0]
      intro hmm
      rcases List.mem_cons.mp hmm with he | hmm2
      · exact absurd he.symm (by decide)
      · rcases List.mem_cons.mp hmm2 with he | hmm3
        · exact absurd he.symm (by decide)
        · exact hnoNl l₀ hl₀ hmm3
  have hmapne : (splitNl s).map
      (fun l => if l = [] then [] else ' ' :: ' ' :: l) ≠ [] := by
    intro h
    exact hne (List.map_eq_nil_iff.mp h)
  have hsplit : splitNl (ruamel_dump (load_cards s)) =
      (splitNl s).map (fun l => if l = [] then [] else ' ' :: ' ' :: l) := by
    show splitNl (joinNl _) = _
    exact splitNl_joinNl _ hmapne hmapNoNl
  show textwrap_dedent (ruamel_dump (load_cards s)) = s
  simp only [textwrap_dedent, dedentLines]
  rw [hsplit]
  have hnorm : ((splitNl s).map
        (fun l => if l = [] then [] else ' ' :: ' ' :: l)).map
      (fun l => if wsOnlyLine l then [] else l) =
      (splitNl s).map (fun l => if l = [] then [] else ' ' :: ' ' :: l) := by
    rw [List.map_map]
    apply List.map_congr_left
    intro l₀ hl₀
    by_cases h0 : l₀ = []
    · simp [h0, wsOnlyLine]
    · have hall : l₀.all isIndentChar = false := by
        have hw := hws l₀ hl₀
        cases l₀ with
        | nil => exact absurd rfl h0
        | cons c w => simpa [wsOnlyLine_cons] using hw
      simp only [Function.comp_apply, if_neg h0, wsOnlyLine_cons,
        List.all_cons, hall]
      simp [isIndentChar]
  rw [hnorm]
  have hmargin : marginOf ((splitNl s).map
      (fun l => if l = [] then [] else ' ' :: ' ' :: l)) = [' ', ' '] := by
    apply marginOf_eq
    · intro l hl hc
      obtain ⟨l₀, hl₀, rfl⟩ := List.mem_map.mp hl
      by_cases h0 : l₀ = []
      · rw [h0] at hc
        exact absurd hc (by decide)
      · rw [if_neg h0] at hc ⊢
        rw [lineIndent_indent2]
        exact ⟨lineIndent l₀, rfl⟩
    · obtain ⟨l₀, hl₀, hc, hi⟩ := htop
      have h0 : l₀ ≠ [] := by
        intro h
        rw [h] at hc
        exact absurd hc (by decide)
      refine ⟨' ' :: ' ' :: l₀,
        List.mem_map.mpr ⟨l₀, hl₀, by rw [if_neg h0]⟩, ?_, ?_⟩
      · rw [lineHasContent_indent2, hc]
      · rw [lineIndent_indent2, hi]
  rw [hmargin, List.map_map]
  trans joinNl ((splitNl s).map (fun l => l))
  · congr 1
    apply List.map_congr_left
    intro l₀ _
    exact dedent_line_point l₀
  · rw [List.map_id', joinNl_splitNl]

/-- C1 witness: a two-card YAML text in the repository's format. -/
theorem load_save_roundtrip_witness :
    save_cards (load_cards
      ("- logo: /assets/img/a.svg\n  content:\n    - |-\n      <p>hi</p>\n- content:\n    - |-\n      x").toList) =
    ("- logo: /assets/img/a.svg\n  content:\n    - |-\n      <p>hi</p>\n- content:\n    - |-\n      x").toList := by
  apply load_save_roundtrip
  · decide
  · decide

end SiteCards
